import Mathlib

/-!
Verification of the numerical core of `17_ODE_BVP.ipynb`: the shooting-method
loop and the finite-difference boundary-value solvers (the Dirichlet
elimination variant and the ghost-point mixed Dirichlet/Neumann variant).
Machine floating-point arithmetic is modelled by exact arithmetic in a
linear ordered field; the black-box collaborators (`numpy.linalg.solve`
and the `dopri5` IVP integrator) are modelled relationally or as function
parameters.
-/

/-- Grid including both boundaries: entry `i` of `numpy.linspace(a, b, N + 2)`. -/
def x_bc {F : Type} [LinearOrderedField F] (a b : F) (N : ℕ) (i : ℕ) : F :=
  a + (b - a) * i / (N + 1)

/-- Uniform spacing `delta_x = (b - a) / (N + 1)`. -/
def delta_x {F : Type} [LinearOrderedField F] (a b : F) (N : ℕ) : F :=
  (b - a) / (N + 1)

/-- The matrix overlay `numpy.diag(v, 0)` with a constant vector `c`. -/
def diagMain {F : Type} [LinearOrderedField F] (n : ℕ) (c : F) :
    Fin n → Fin n → F :=
  fun i j => if i = j then c else 0

/-- The matrix overlay `numpy.diag(v, 1)` with a constant vector `c`. -/
def diagUpper {F : Type} [LinearOrderedField F] (n : ℕ) (c : F) :
    Fin n → Fin n → F :=
  fun i j => if (j : ℕ) = (i : ℕ) + 1 then c else 0

/-- The matrix overlay `numpy.diag(v, -1)` with a constant vector `c`. -/
def diagLower {F : Type} [LinearOrderedField F] (n : ℕ) (c : F) :
    Fin n → Fin n → F :=
  fun i j => if (i : ℕ) = (j : ℕ) + 1 then c else 0

/-- The tridiagonal matrix built by the notebook via three `numpy.diag`
overlays from `diagonal = numpy.ones(n) * c` (with `c = 1/delta_x**2`):
`A = diag(diagonal * -2, 0) + diag(diagonal[:-1], 1) + diag(diagonal[:-1], -1)`. -/
def tridiag {F : Type} [LinearOrderedField F] (n : ℕ) (c : F) :
    Fin n → Fin n → F :=
  fun i j => diagMain n (c * (-2)) i j + diagUpper n c i j + diagLower n c i j

/-- Matrix-vector product `A @ v`, the system shape handed to
`numpy.linalg.solve`. -/
def matVec {F : Type} [LinearOrderedField F] {n : ℕ} (A : Fin n → Fin n → F)
    (v : Fin n → F) (i : Fin n) : F :=
  ∑ j, A i j * v j

/-- The `N × N` Dirichlet finite-difference matrix of the notebook. -/
def dirichletA {F : Type} [LinearOrderedField F] (a b : F) (N : ℕ) :
    Fin N → Fin N → F :=
  tridiag N (1 / delta_x a b N ^ 2)

/-- The Dirichlet right-hand side: `b = f(x)` on the interior grid, then
`b[0] -= u_a/delta_x**2` and `b[-1] -= u_b/delta_x**2`.  Interior point `i`
is grid point `i + 1` of the full grid. -/
def dirichletRHS {F : Type} [LinearOrderedField F] (f : F → F) (a b u_a u_b : F)
    (N : ℕ) : Fin N → F :=
  fun i =>
    f (x_bc a b N ((i : ℕ) + 1))
      - (if (i : ℕ) = 0 then u_a / delta_x a b N ^ 2 else 0)
      - (if (i : ℕ) = N - 1 then u_b / delta_x a b N ^ 2 else 0)

/-- Totalised form of the output assembly `U[0] = u_a; U[-1] = u_b;
U[1:-1] = w`, indexed by natural numbers. -/
def outFun {F : Type} [LinearOrderedField F] (u_a u_b : F) (N : ℕ)
    (w : Fin N → F) : ℕ → F :=
  fun i => if i = 0 then u_a else if h : i - 1 < N then w ⟨i - 1, h⟩ else u_b

/-- The assembled output vector of length `N + 2`:
`U[0] = u_a`, `U[-1] = u_b`, `U[1:-1] =` the interior solve result `w`. -/
def dirichletOutput {F : Type} [LinearOrderedField F] (u_a u_b : F) (N : ℕ)
    (w : Fin N → F) : Fin (N + 2) → F :=
  fun i => outFun u_a u_b N w i

/-- Relational model of the whole Dirichlet solve cell: `U` is an output of
the cell when some interior vector `w` solves the assembled linear system
exactly (`numpy.linalg.solve` modelled as an exact solver) and `U` is the
concatenation `[u_a, w, u_b]`. -/
def isDirichletOutput {F : Type} [LinearOrderedField F] (f : F → F)
    (a b u_a u_b : F) (N : ℕ) (U : Fin (N + 2) → F) : Prop :=
  ∃ w : Fin N → F,
    matVec (dirichletA a b N) w = dirichletRHS f a b u_a u_b N ∧
    U = dirichletOutput u_a u_b N w

/-- Single in-place matrix entry assignment `A[r, c] = v`. -/
def setEntry {F : Type} [LinearOrderedField F] {n : ℕ} (A : Fin n → Fin n → F)
    (r c : Fin n) (v : F) : Fin n → Fin n → F :=
  fun i j => if i = r ∧ j = c then v else A i j

/-- The `(N+2) × (N+2)` ghost-point matrix: the tridiagonal stencil on all
rows, then the notebook's five sequential boundary assignments
`A[0,0]=1`, `A[0,1]=0`, `A[-1,-1]=3/(2*delta_x)`, `A[-1,-2]=-4/(2*delta_x)`,
`A[-1,-3]=1/(2*delta_x)`. -/
def ghostA {F : Type} [LinearOrderedField F] (a b : F) (N : ℕ) :
    Fin (N + 2) → Fin (N + 2) → F :=
  setEntry (setEntry (setEntry (setEntry (setEntry
    (tridiag (N + 2) (1 / delta_x a b N ^ 2))
    ⟨0, by omega⟩ ⟨0, by omega⟩ 1)
    ⟨0, by omega⟩ ⟨1, by omega⟩ 0)
    ⟨N + 1, by omega⟩ ⟨N + 1, by omega⟩ (3 / (2 * delta_x a b N)))
    ⟨N + 1, by omega⟩ ⟨N, by omega⟩ (-4 / (2 * delta_x a b N)))
    ⟨N + 1, by omega⟩ ⟨N - 1, by omega⟩ (1 / (2 * delta_x a b N))

/-- The ghost-point right-hand side: `b = f(x_bc)` on the full grid, then
`b[0] = u_a` (Dirichlet value) and `b[-1] = u_x_b` (Neumann derivative). -/
def ghostRHS {F : Type} [LinearOrderedField F] (f : F → F) (a b u_a u_x_b : F)
    (N : ℕ) : Fin (N + 2) → F :=
  fun i =>
    if (i : ℕ) = 0 then u_a
    else if (i : ℕ) = N + 1 then u_x_b
    else f (x_bc a b N i)

/-- Mutable state of the shooting loop: the current slope guess
`u_prime_rhs` and the current perturbation step `du_prime`. -/
structure ShootState (F : Type) where
  u_prime_rhs : F
  du_prime : F
  deriving DecidableEq, Repr

/-- Result of a completed (non-aborted) shooting run: the `success` flag,
the final search state, and the recorded convergence trace. -/
structure ShootResult (F : Type) where
  success : Bool
  state : ShootState F
  convergence : List F
  deriving DecidableEq, Repr

/-- The guess update of the shooting loop's `else` branch:
if the computed `u(b)` undershoots the target, `u_prime_rhs += du_prime`;
otherwise `u_prime_rhs -= du_prime` and `du_prime *= 0.5`. -/
def shootUpdate {F : Type} [LinearOrderedField F] (u_b uEnd : F)
    (s : ShootState F) : ShootState F :=
  if uEnd < u_b then ⟨s.u_prime_rhs + s.du_prime, s.du_prime⟩
  else ⟨s.u_prime_rhs - s.du_prime, s.du_prime * (1 / 2)⟩

/-- The shooting-method main loop.  `solveIVP g` models the inner `dopri5`
integration sweep from `x = a` to `x = b` started at state `(u_a, g)`,
returning the computed `u(b)` or `none` when `integrator.successful()` is
false at some step (in which case the cell raises
`Exception("Integration Failed!")`).  Each iteration records the residual
`|u(b) - u_b|` in the convergence trace, stops successfully when it is
below `TOLERANCE`, and otherwise updates the guess with `shootUpdate`.
The fuel argument models `for n in range(MAX_ITERATIONS)`; on exhaustion
the `success` flag is left `false`. -/
def shootLoop {F : Type} [LinearOrderedField F] (solveIVP : F → Option F)
    (u_b TOLERANCE : F) :
    ℕ → ShootState F → List F → Except String (ShootResult F)
  | 0, s, trace => Except.ok ⟨false, s, trace⟩
  | n + 1, s, trace =>
    match solveIVP s.u_prime_rhs with
    | none => Except.error "Integration Failed!"
    | some uEnd =>
      if |uEnd - u_b| < TOLERANCE then
        Except.ok ⟨true, s, trace ++ [|uEnd - u_b|]⟩
      else
        shootLoop solveIVP u_b TOLERANCE n (shootUpdate u_b uEnd s)
          (trace ++ [|uEnd - u_b|])

/-- Iterated guess updates of the shooting loop, with `vals m` the computed
`u(b)` of iteration `m`; used to state loop invariants of `du_prime`. -/
def iterUpdates {F : Type} [LinearOrderedField F] (u_b : F) (vals : ℕ → F)
    (s : ShootState F) : ℕ → ShootState F
  | 0 => s
  | k + 1 => shootUpdate u_b (vals k) (iterUpdates u_b vals s k)

/-- The exact solution used by the notebook's Dirichlet convergence example
`u_xx = e^x`, `u(0) = 0`, `u(1) = 3`: `u_true(x) = (4 - e) x - 1 + e^x`. -/
noncomputable def u_true (x : ℝ) : ℝ :=
  (4 - Real.exp 1) * x - 1 + Real.exp x

theorem sum_ite_coe_eq {F : Type} [LinearOrderedField F] {n : ℕ} (m : ℕ)
    (hm : m < n) (g : Fin n → F) :
    (∑ j : Fin n, if (j : ℕ) = m then g j else 0) = g ⟨m, hm⟩ := by
  rw [Finset.sum_eq_single ⟨m, hm⟩]
  · simp
  · intro j _ hj
    rw [if_neg]
    intro hc
    exact hj (Fin.ext hc)
  · intro h
    exact absurd (Finset.mem_univ _) h

theorem sum_ite_coe_out {F : Type} [LinearOrderedField F] {n : ℕ} (m : ℕ)
    (hm : n ≤ m) (g : Fin n → F) :
    (∑ j : Fin n, if (j : ℕ) = m then g j else 0) = 0 :=
  Finset.sum_eq_zero fun j _ => by
    rw [if_neg]
    have := j.isLt
    omega

theorem matVec_tridiag {F : Type} [LinearOrderedField F] {n : ℕ} (c : F)
    (v : Fin n → F) (i : Fin n) :
    matVec (tridiag n c) v i =
      c * (-2) * v i
      + (if h : (i : ℕ) + 1 < n then c * v ⟨(i : ℕ) + 1, h⟩ else 0)
      + (if h : 0 < (i : ℕ) then
          c * v ⟨(i : ℕ) - 1, lt_of_le_of_lt (Nat.sub_le _ _) i.isLt⟩ else 0) := by
  unfold matVec tridiag diagMain diagUpper diagLower
  simp only [add_mul, Finset.sum_add_distrib, ite_mul, zero_mul]
  congr 1
  · congr 1
    · rw [Finset.sum_ite_eq]
      simp
    · by_cases h : (i : ℕ) + 1 < n
      · rw [dif_pos h, sum_ite_coe_eq ((i : ℕ) + 1) h]
      · rw [dif_neg h, sum_ite_coe_out ((i : ℕ) + 1) (by omega)]
  · by_cases h : 0 < (i : ℕ)
    · rw [dif_pos h]
      rw [show (∑ j : Fin n, if (i : ℕ) = (j : ℕ) + 1 then c * v j else 0)
            = ∑ j : Fin n, if (j : ℕ) = (i : ℕ) - 1 then c * v j else 0 from
          Finset.sum_congr rfl fun j _ => by
            by_cases hc : (i : ℕ) = (j : ℕ) + 1
            · rw [if_pos hc, if_pos (by omega)]
            · rw [if_neg hc, if_neg (by omega)]]
      rw [sum_ite_coe_eq ((i : ℕ) - 1) (lt_of_le_of_lt (Nat.sub_le _ _) i.isLt)]
    · rw [dif_neg h]
      exact Finset.sum_eq_zero fun j _ => by
        rw [if_neg]
        omega

/-- C1: the Dirichlet finite-difference system has the tridiagonal matrix
with diagonal `-2/delta_x^2`, sub- and super-diagonal `1/delta_x^2` and zero
elsewhere, and right-hand side `f(x_i)` at interior points with the first
entry adjusted by `-u_a/delta_x^2` and the last by `-u_b/delta_x^2`. -/
theorem dirichlet_assembly {F : Type} [LinearOrderedField F] (f : F → F)
    (a b u_a u_b : F) (N : ℕ) (hN : 2 ≤ N) :
    (∀ i j : Fin N, dirichletA a b N i j =
        if i = j then -2 / delta_x a b N ^ 2
        else if (j : ℕ) = (i : ℕ) + 1 ∨ (i : ℕ) = (j : ℕ) + 1 then
          1 / delta_x a b N ^ 2
        else 0)
    ∧ dirichletRHS f a b u_a u_b N ⟨0, by omega⟩
        = f (x_bc a b N 1) - u_a / delta_x a b N ^ 2
    ∧ dirichletRHS f a b u_a u_b N ⟨N - 1, by omega⟩
        = f (x_bc a b N N) - u_b / delta_x a b N ^ 2
    ∧ ∀ i : Fin N, (i : ℕ) ≠ 0 → (i : ℕ) ≠ N - 1 →
        dirichletRHS f a b u_a u_b N i = f (x_bc a b N ((i : ℕ) + 1)) := by
  refine ⟨fun i j => ?_, ?_, ?_, fun i h0 h1 => ?_⟩
  · simp only [dirichletA, tridiag, diagMain, diagUpper, diagLower, Fin.ext_iff]
    split_ifs <;> first | ring1 | (exfalso; omega)
  · have h2 : ¬((0 : ℕ) = N - 1) := by omega
    simp [dirichletRHS, h2]
  · have h1 : ¬((N - 1 : ℕ) = 0) := by omega
    have h2 : N - 1 + 1 = N := by omega
    simp [dirichletRHS, h1, h2]
  · simp [dirichletRHS, h0, h1]

theorem dirichlet_assembly_witness :
    (∀ i j : Fin 2, dirichletA (0 : ℚ) 1 2 i j =
        if i = j then -2 / delta_x (0 : ℚ) 1 2 ^ 2
        else if (j : ℕ) = (i : ℕ) + 1 ∨ (i : ℕ) = (j : ℕ) + 1 then
          1 / delta_x (0 : ℚ) 1 2 ^ 2
        else 0)
    ∧ dirichletRHS (fun x => x) (0 : ℚ) 1 2 3 2 ⟨0, by omega⟩
        = (fun x => x) (x_bc (0 : ℚ) 1 2 1) - 2 / delta_x (0 : ℚ) 1 2 ^ 2
    ∧ dirichletRHS (fun x => x) (0 : ℚ) 1 2 3 2 ⟨2 - 1, by omega⟩
        = (fun x => x) (x_bc (0 : ℚ) 1 2 2) - 3 / delta_x (0 : ℚ) 1 2 ^ 2
    ∧ ∀ i : Fin 2, (i : ℕ) ≠ 0 → (i : ℕ) ≠ 2 - 1 →
        dirichletRHS (fun x => x) (0 : ℚ) 1 2 3 2 i
          = (fun x => x) (x_bc (0 : ℚ) 1 2 ((i : ℕ) + 1)) :=
  dirichlet_assembly (fun x => x) 0 1 2 3 2 (by norm_num)

/-- C3: for every input, the assembled output vector has type length `N + 2`
and its first entry is exactly `u_a` and its last exactly `u_b` (assigned,
not approximated), regardless of what the interior solve returns. -/
theorem dirichlet_boundary_exact {F : Type} [LinearOrderedField F]
    (u_a u_b : F) (N : ℕ) (w : Fin N → F) :
    dirichletOutput u_a u_b N w ⟨0, by omega⟩ = u_a ∧
    dirichletOutput u_a u_b N w ⟨N + 1, by omega⟩ = u_b := by
  constructor
  · simp [dirichletOutput, outFun]
  · simp [dirichletOutput, outFun]

/-- C4: one non-final shooting iteration records the residual, succeeds
exactly when it is below TOLERANCE, and otherwise applies the update rule:
increase the guess by `du_prime` when the computed `u(b)` undershoots,
else decrease it by `du_prime` and halve `du_prime`. -/
theorem shooting_update_rule {F : Type} [LinearOrderedField F]
    (solveIVP : F → Option F) (u_b TOLERANCE : F) (n : ℕ) (s : ShootState F)
    (trace : List F) (uEnd : F) (h : solveIVP s.u_prime_rhs = some uEnd) :
    shootLoop solveIVP u_b TOLERANCE (n + 1) s trace =
      if |uEnd - u_b| < TOLERANCE then
        Except.ok ⟨true, s, trace ++ [|uEnd - u_b|]⟩
      else
        shootLoop solveIVP u_b TOLERANCE n
          (if uEnd < u_b then ⟨s.u_prime_rhs + s.du_prime, s.du_prime⟩
           else ⟨s.u_prime_rhs - s.du_prime, s.du_prime * (1 / 2)⟩)
          (trace ++ [|uEnd - u_b|]) := by
  simp only [shootLoop, shootUpdate, h]

theorem shooting_update_rule_witness :
    shootLoop (fun t => some t) (5 : ℚ) 1 (3 + 1) ⟨1, 1 / 2⟩ [] =
      if |(1 : ℚ) - 5| < 1 then
        Except.ok ⟨true, ⟨1, 1 / 2⟩, [] ++ [|(1 : ℚ) - 5|]⟩
      else
        shootLoop (fun t => some t) (5 : ℚ) 1 3
          (if (1 : ℚ) < 5 then ⟨1 + 1 / 2, 1 / 2⟩ else ⟨1 - 1 / 2, 1 / 2 * (1 / 2)⟩)
          ([] ++ [|(1 : ℚ) - 5|]) :=
  shooting_update_rule (fun t => some t) 5 1 3 ⟨1, 1 / 2⟩ [] 1 rfl

theorem shootLoop_no_tol {F : Type} [LinearOrderedField F] (ivp : F → Option F)
    (u_b TOLERANCE : F) (htotal : ∀ t, ∃ u, ivp t = some u)
    (hnever : ∀ t u, ivp t = some u → TOLERANCE ≤ |u - u_b|) :
    ∀ (m : ℕ) (s0 : ShootState F) (tr0 : List F),
      ∃ sEnd tr, shootLoop ivp u_b TOLERANCE m s0 tr0
        = Except.ok ⟨false, sEnd, tr0 ++ tr⟩ ∧ tr.length = m := by
  intro m
  induction m with
  | zero =>
    intro s0 tr0
    exact ⟨s0, [], by simp [shootLoop], rfl⟩
  | succ m ih =>
    intro s0 tr0
    obtain ⟨u, hu⟩ := htotal s0.u_prime_rhs
    obtain ⟨sEnd, tr, htr, hlen⟩ := ih (shootUpdate u_b u s0) (tr0 ++ [|u - u_b|])
    refine ⟨sEnd, |u - u_b| :: tr, ?_, by simp [hlen]⟩
    have hstep : shootLoop ivp u_b TOLERANCE (m + 1) s0 tr0
        = shootLoop ivp u_b TOLERANCE m (shootUpdate u_b u s0)
            (tr0 ++ [|u - u_b|]) := by
      simp only [shootLoop, hu]
      rw [if_neg (not_lt.mpr (hnever _ _ hu))]
    rw [hstep, htr]
    simp

theorem shootLoop_total_ok {F : Type} [LinearOrderedField F] (ivp : F → Option F)
    (u_b TOLERANCE : F) (htotal : ∀ t, ∃ u, ivp t = some u) :
    ∀ (m : ℕ) (s0 : ShootState F) (tr0 : List F),
      ∃ r, shootLoop ivp u_b TOLERANCE m s0 tr0 = Except.ok r := by
  intro m
  induction m with
  | zero =>
    intro s0 tr0
    exact ⟨⟨false, s0, tr0⟩, by simp [shootLoop]⟩
  | succ m ih =>
    intro s0 tr0
    obtain ⟨u, hu⟩ := htotal s0.u_prime_rhs
    by_cases hc : |u - u_b| < TOLERANCE
    · exact ⟨_, by simp only [shootLoop, hu]; rw [if_pos hc]⟩
    · obtain ⟨r, hr⟩ := ih (shootUpdate u_b u s0) (tr0 ++ [|u - u_b|])
      exact ⟨r, by simp only [shootLoop, hu]; rw [if_neg hc]; exact hr⟩

/-- C5: integrator failure at a step aborts the whole solve with the raised
fatal error and no partial result, while exhausting the iteration budget
without meeting TOLERANCE completes non-fatally with the success flag
`false` and the full convergence trace (one residual per iteration)
returned to the caller. -/
theorem shooting_failure_modes {F : Type} [LinearOrderedField F]
    (ivpFail ivpOk : F → Option F) (u_b TOLERANCE : F) (n m : ℕ)
    (s sOk : ShootState F) (trace traceOk : List F)
    (hfail : ivpFail s.u_prime_rhs = none)
    (htotal : ∀ t, ∃ u, ivpOk t = some u)
    (hnever : ∀ t u, ivpOk t = some u → TOLERANCE ≤ |u - u_b|) :
    shootLoop ivpFail u_b TOLERANCE (n + 1) s trace
      = Except.error "Integration Failed!"
    ∧ ∃ sEnd tr, shootLoop ivpOk u_b TOLERANCE m sOk traceOk
        = Except.ok ⟨false, sEnd, traceOk ++ tr⟩ ∧ tr.length = m := by
  constructor
  · simp only [shootLoop, hfail]
  · exact shootLoop_no_tol ivpOk u_b TOLERANCE htotal hnever m sOk traceOk

theorem shooting_failure_modes_witness :
    shootLoop (fun _ => none) (0 : ℚ) 1 (0 + 1) ⟨0, 1⟩ []
      = Except.error "Integration Failed!"
    ∧ ∃ sEnd tr, shootLoop (fun _ => some 1) (0 : ℚ) 1 2 ⟨0, 1⟩ []
        = Except.ok ⟨false, sEnd, [] ++ tr⟩ ∧ tr.length = 2 :=
  shooting_failure_modes (fun _ => none) (fun _ => some 1) 0 1 0 2
    ⟨0, 1⟩ ⟨0, 1⟩ [] [] rfl (fun _ => ⟨1, rfl⟩)
    (fun _ u h => by
      injection h with h2
      rw [← h2]
      rw [show |(1 : ℚ) - 0| = 1 by rw [sub_zero, abs_one]])

/-- C6 counterexample: the shooting loop accepts the invalid perturbation
step `du_prime = 0` and, far from raising an InvalidInput error before any
integration, performs five integration sweeps and completes normally with
a full convergence trace. -/
theorem invalid_input_counterexample :
    shootLoop (fun t => some t) (5 : ℚ) (1 / 100) 5 ⟨1, 0⟩ []
      = Except.ok ⟨false, ⟨1, 0⟩, [4, 4, 4, 4, 4]⟩ := by
  norm_num [shootLoop, shootUpdate]

/-- C6 amended: the shooting solver performs no input validation: the
invalid non-positive perturbation step `du_prime <= 0` is accepted, and the
loop (under an integrator that never fails) runs its integrations and
completes with a normal result - no InvalidInput error is raised before or
during the computation. -/
theorem no_input_validation {F : Type} [LinearOrderedField F]
    (ivp : F → Option F) (u_b TOLERANCE ds s0 : F) (n : ℕ) (trace : List F)
    (htotal : ∀ t, ∃ u, ivp t = some u) (hds : ds ≤ 0) :
    ∃ r, shootLoop ivp u_b TOLERANCE n ⟨s0, ds⟩ trace = Except.ok r :=
  shootLoop_total_ok ivp u_b TOLERANCE htotal n ⟨s0, ds⟩ trace

theorem no_input_validation_witness :
    ∃ r, shootLoop (fun t => some t) (7 : ℚ) 1 3 ⟨2, -1⟩ [] = Except.ok r :=
  no_input_validation (fun t => some t) 7 1 (-1) 2 3 []
    (fun t => ⟨t, rfl⟩) (by norm_num)

/-- C10: along any run of shooting-loop guess updates started with
`du_prime = Δs₀ > 0`: `du_prime` always equals `Δs₀ · (1/2)^k` where `k`
counts the iterations whose computed `u(b)` reached or exceeded the target
(it is exactly halved there and unchanged otherwise), hence stays strictly
positive and non-increasing, and every update moves the slope guess by
exactly the strictly positive amount `du_prime`. -/
theorem du_prime_invariant {F : Type} [LinearOrderedField F] (u_b : F)
    (vals : ℕ → F) (s : ShootState F) (hpos : 0 < s.du_prime) :
    (∀ k, (iterUpdates u_b vals s k).du_prime
        = s.du_prime
            * (1 / 2) ^ ((Finset.range k).filter fun m => ¬ vals m < u_b).card)
    ∧ (∀ k, 0 < (iterUpdates u_b vals s k).du_prime)
    ∧ (∀ k, (iterUpdates u_b vals s (k + 1)).du_prime
        ≤ (iterUpdates u_b vals s k).du_prime)
    ∧ (∀ k, (iterUpdates u_b vals s (k + 1)).du_prime =
        if vals k < u_b then (iterUpdates u_b vals s k).du_prime
        else (iterUpdates u_b vals s k).du_prime * (1 / 2))
    ∧ ∀ k, |(iterUpdates u_b vals s (k + 1)).u_prime_rhs
        - (iterUpdates u_b vals s k).u_prime_rhs|
        = (iterUpdates u_b vals s k).du_prime := by
  have hstep : ∀ k, (iterUpdates u_b vals s (k + 1)).du_prime =
      if vals k < u_b then (iterUpdates u_b vals s k).du_prime
      else (iterUpdates u_b vals s k).du_prime * (1 / 2) := by
    intro k
    by_cases hc : vals k < u_b <;> simp [iterUpdates, shootUpdate, hc]
  have hpow : ∀ k, (iterUpdates u_b vals s k).du_prime
      = s.du_prime
          * (1 / 2) ^ ((Finset.range k).filter fun m => ¬ vals m < u_b).card := by
    intro k
    induction k with
    | zero => simp [iterUpdates]
    | succ k ih =>
      rw [hstep k, ih, Finset.range_succ, Finset.filter_insert]
      by_cases hc : vals k < u_b
      · rw [if_pos hc, if_neg (not_not_intro hc)]
      · rw [if_neg hc, if_pos hc,
          Finset.card_insert_of_not_mem
            (fun hmem => absurd (Finset.mem_filter.mp hmem).1
              (by simp [Finset.mem_range])),
          pow_succ]
        ring
  have hptwise : ∀ k, 0 < (iterUpdates u_b vals s k).du_prime := by
    intro k
    rw [hpow k]
    exact mul_pos hpos (pow_pos (by norm_num) _)
  refine ⟨hpow, hptwise, fun k => ?_, hstep, fun k => ?_⟩
  · rw [hstep k]
    by_cases hc : vals k < u_b
    · rw [if_pos hc]
    · rw [if_neg hc]
      have := hptwise k
      linarith
  · have hp := hptwise k
    by_cases hc : vals k < u_b
    · simp only [iterUpdates, shootUpdate, if_pos hc]
      rw [add_sub_cancel_left]
      exact abs_of_pos hp
    · simp only [iterUpdates, shootUpdate, if_neg hc]
      rw [sub_sub_cancel_left, abs_neg]
      exact abs_of_pos hp

theorem du_prime_invariant_witness :
    0 < (iterUpdates (0 : ℚ) (fun _ => 1) ⟨0, 1⟩ 3).du_prime
    ∧ (iterUpdates (0 : ℚ) (fun _ => 1) ⟨0, 1⟩ 3).du_prime
        = 1 * (1 / 2) ^ ((Finset.range 3).filter fun m => ¬ (1 : ℚ) < 0).card :=
  ⟨(du_prime_invariant 0 (fun _ => 1) ⟨0, 1⟩ (by norm_num)).2.1 3,
   (du_prime_invariant 0 (fun _ => 1) ⟨0, 1⟩ (by norm_num)).1 3⟩

theorem setEntry_miss_row {F : Type} [LinearOrderedField F] {n : ℕ}
    (A : Fin n → Fin n → F) (r c : Fin n) (v : F) (i j : Fin n)
    (h : (i : ℕ) ≠ (r : ℕ)) : setEntry A r c v i j = A i j := by
  rw [setEntry, if_neg]
  intro hc
  exact h (congrArg Fin.val hc.1)

theorem setEntry_miss_col {F : Type} [LinearOrderedField F] {n : ℕ}
    (A : Fin n → Fin n → F) (r c : Fin n) (v : F) (i j : Fin n)
    (h : (j : ℕ) ≠ (c : ℕ)) : setEntry A r c v i j = A i j := by
  rw [setEntry, if_neg]
  intro hc
  exact h (congrArg Fin.val hc.2)

theorem setEntry_hit {F : Type} [LinearOrderedField F] {n : ℕ}
    (A : Fin n → Fin n → F) (r c : Fin n) (v : F) (i j : Fin n)
    (h1 : (i : ℕ) = (r : ℕ)) (h2 : (j : ℕ) = (c : ℕ)) :
    setEntry A r c v i j = v := by
  rw [setEntry, if_pos ⟨Fin.ext h1, Fin.ext h2⟩]

theorem tridiag_zero {F : Type} [LinearOrderedField F] {n : ℕ} (c : F)
    (i j : Fin n) (h1 : (i : ℕ) ≠ (j : ℕ)) (h2 : (j : ℕ) ≠ (i : ℕ) + 1)
    (h3 : (i : ℕ) ≠ (j : ℕ) + 1) : tridiag n c i j = 0 := by
  simp only [tridiag, diagMain, diagUpper, diagLower]
  rw [if_neg (fun hc => h1 (congrArg Fin.val hc)), if_neg h2, if_neg h3]
  simp

theorem tridiag_diag {F : Type} [LinearOrderedField F] {n : ℕ} (c : F)
    (i j : Fin n) (h : (i : ℕ) = (j : ℕ)) : tridiag n c i j = c * (-2) := by
  simp only [tridiag, diagMain, diagUpper, diagLower]
  rw [if_pos (Fin.ext h), if_neg (by omega), if_neg (by omega)]
  simp

theorem tridiag_up {F : Type} [LinearOrderedField F] {n : ℕ} (c : F)
    (i j : Fin n) (h : (j : ℕ) = (i : ℕ) + 1) : tridiag n c i j = c := by
  simp only [tridiag, diagMain, diagUpper, diagLower]
  rw [if_neg (fun hc => by have := congrArg Fin.val hc; omega), if_pos h,
    if_neg (by omega)]
  simp

theorem tridiag_low {F : Type} [LinearOrderedField F] {n : ℕ} (c : F)
    (i j : Fin n) (h : (i : ℕ) = (j : ℕ) + 1) : tridiag n c i j = c := by
  simp only [tridiag, diagMain, diagUpper, diagLower]
  rw [if_neg (fun hc => by have := congrArg Fin.val hc; omega),
    if_neg (by omega), if_pos h]
  simp

/-- C7: in the ghost-point mixed-boundary system, after the boundary
overwrites, row 0 is the identity row with right-hand side the known
Dirichlet value, the last row carries the one-sided stencil
`[1, -4, 3]/(2*delta_x)` at columns `N-1, N, N+1` (zero elsewhere) with
right-hand side the known Neumann derivative, and rows `1..N` keep the
interior stencil `[1, -2, 1]/delta_x^2`. -/
theorem ghost_assembly {F : Type} [LinearOrderedField F] (f : F → F)
    (a b u_a u_x_b : F) (N : ℕ) (hN : 1 ≤ N) :
    (∀ i j : Fin (N + 2), (i : ℕ) = 0 →
        ghostA a b N i j = if (j : ℕ) = 0 then 1 else 0)
    ∧ (∀ i j : Fin (N + 2), (i : ℕ) = N + 1 →
        ghostA a b N i j =
          if (j : ℕ) = N - 1 then 1 / (2 * delta_x a b N)
          else if (j : ℕ) = N then -4 / (2 * delta_x a b N)
          else if (j : ℕ) = N + 1 then 3 / (2 * delta_x a b N)
          else 0)
    ∧ (∀ i j : Fin (N + 2), 1 ≤ (i : ℕ) → (i : ℕ) ≤ N →
        ghostA a b N i j =
          if (i : ℕ) = (j : ℕ) then -2 / delta_x a b N ^ 2
          else if (j : ℕ) = (i : ℕ) + 1 ∨ (i : ℕ) = (j : ℕ) + 1 then
            1 / delta_x a b N ^ 2
          else 0)
    ∧ (∀ i : Fin (N + 2), (i : ℕ) = 0 → ghostRHS f a b u_a u_x_b N i = u_a)
    ∧ (∀ i : Fin (N + 2), (i : ℕ) = N + 1 →
        ghostRHS f a b u_a u_x_b N i = u_x_b) := by
  refine ⟨fun i j hi => ?_, fun i j hi => ?_, fun i j h1 h2 => ?_,
    fun i hi => ?_, fun i hi => ?_⟩
  · have hjlt := j.isLt
    rw [ghostA, setEntry_miss_row _ _ _ _ _ _ (by show (i : ℕ) ≠ N + 1; omega),
      setEntry_miss_row _ _ _ _ _ _ (by show (i : ℕ) ≠ N + 1; omega),
      setEntry_miss_row _ _ _ _ _ _ (by show (i : ℕ) ≠ N + 1; omega)]
    by_cases hj1 : (j : ℕ) = 1
    · rw [setEntry_hit _ _ _ _ _ _ (by show (i : ℕ) = 0; omega)
        (by show (j : ℕ) = 1; omega), if_neg (by omega)]
    · rw [setEntry_miss_col _ _ _ _ _ _ (by show (j : ℕ) ≠ 1; omega)]
      by_cases hj0 : (j : ℕ) = 0
      · rw [setEntry_hit _ _ _ _ _ _ (by show (i : ℕ) = 0; omega)
          (by show (j : ℕ) = 0; omega), if_pos hj0]
      · rw [setEntry_miss_col _ _ _ _ _ _ (by show (j : ℕ) ≠ 0; omega),
          if_neg hj0]
        exact tridiag_zero _ _ _ (by omega) (by omega) (by omega)
  · have hjlt := j.isLt
    rw [ghostA]
    by_cases hjm : (j : ℕ) = N - 1
    · rw [setEntry_hit _ _ _ _ _ _ (by show (i : ℕ) = N + 1; omega)
        (by show (j : ℕ) = N - 1; omega), if_pos hjm]
    · rw [setEntry_miss_col _ _ _ _ _ _ (by show (j : ℕ) ≠ N - 1; omega)]
      by_cases hjN : (j : ℕ) = N
      · rw [setEntry_hit _ _ _ _ _ _ (by show (i : ℕ) = N + 1; omega)
          (by show (j : ℕ) = N; omega), if_neg (by omega), if_pos hjN]
      · rw [setEntry_miss_col _ _ _ _ _ _ (by show (j : ℕ) ≠ N; omega)]
        by_cases hjT : (j : ℕ) = N + 1
        · rw [setEntry_hit _ _ _ _ _ _ (by show (i : ℕ) = N + 1; omega)
            (by show (j : ℕ) = N + 1; omega), if_neg (by omega),
            if_neg (by omega), if_pos hjT]
        · rw [setEntry_miss_col _ _ _ _ _ _ (by show (j : ℕ) ≠ N + 1; omega),
            setEntry_miss_row _ _ _ _ _ _ (by show (i : ℕ) ≠ 0; omega),
            setEntry_miss_row _ _ _ _ _ _ (by show (i : ℕ) ≠ 0; omega),
            if_neg (by omega), if_neg (by omega), if_neg (by omega)]
          exact tridiag_zero _ _ _ (by omega) (by omega) (by omega)
  · have hjlt := j.isLt
    rw [ghostA, setEntry_miss_row _ _ _ _ _ _ (by show (i : ℕ) ≠ N + 1; omega),
      setEntry_miss_row _ _ _ _ _ _ (by show (i : ℕ) ≠ N + 1; omega),
      setEntry_miss_row _ _ _ _ _ _ (by show (i : ℕ) ≠ N + 1; omega),
      setEntry_miss_row _ _ _ _ _ _ (by show (i : ℕ) ≠ 0; omega),
      setEntry_miss_row _ _ _ _ _ _ (by show (i : ℕ) ≠ 0; omega)]
    by_cases hd : (i : ℕ) = (j : ℕ)
    · rw [tridiag_diag _ _ _ hd, if_pos hd]
      ring1
    · rw [if_neg hd]
      by_cases hu : (j : ℕ) = (i : ℕ) + 1
      · rw [tridiag_up _ _ _ hu, if_pos (Or.inl hu)]
      · by_cases hl : (i : ℕ) = (j : ℕ) + 1
        · rw [tridiag_low _ _ _ hl, if_pos (Or.inr hl)]
        · rw [tridiag_zero _ _ _ hd hu hl,
            if_neg (fun hc => hc.elim hu hl)]
  · simp only [ghostRHS]
    rw [if_pos hi]
  · simp only [ghostRHS]
    rw [if_neg (by omega), if_pos hi]

theorem ghost_assembly_witness :
    (∀ i j : Fin 3, (i : ℕ) = 0 →
        ghostA (0 : ℚ) 3 1 i j = if (j : ℕ) = 0 then 1 else 0)
    ∧ (∀ i j : Fin 3, (i : ℕ) = 1 + 1 →
        ghostA (0 : ℚ) 3 1 i j =
          if (j : ℕ) = 1 - 1 then 1 / (2 * delta_x (0 : ℚ) 3 1)
          else if (j : ℕ) = 1 then -4 / (2 * delta_x (0 : ℚ) 3 1)
          else if (j : ℕ) = 1 + 1 then 3 / (2 * delta_x (0 : ℚ) 3 1)
          else 0)
    ∧ (∀ i j : Fin 3, 1 ≤ (i : ℕ) → (i : ℕ) ≤ 1 →
        ghostA (0 : ℚ) 3 1 i j =
          if (i : ℕ) = (j : ℕ) then -2 / delta_x (0 : ℚ) 3 1 ^ 2
          else if (j : ℕ) = (i : ℕ) + 1 ∨ (i : ℕ) = (j : ℕ) + 1 then
            1 / delta_x (0 : ℚ) 3 1 ^ 2
          else 0)
    ∧ (∀ i : Fin 3, (i : ℕ) = 0 → ghostRHS (fun x => x) (0 : ℚ) 3 7 9 1 i = 7)
    ∧ (∀ i : Fin 3, (i : ℕ) = 1 + 1 →
        ghostRHS (fun x => x) (0 : ℚ) 3 7 9 1 i = 9) :=
  ghost_assembly (fun x => x) 0 3 7 9 1 (le_refl 1)

theorem dirichlet_recurrence {F : Type} [LinearOrderedField F] (f : F → F)
    (a b u_a u_b : F) (N : ℕ) (w : Fin N → F)
    (hw : matVec (dirichletA a b N) w = dirichletRHS f a b u_a u_b N)
    (k : ℕ) (hk : k < N) :
    (outFun u_a u_b N w k - 2 * outFun u_a u_b N w (k + 1)
        + outFun u_a u_b N w (k + 2)) / delta_x a b N ^ 2
      = f (x_bc a b N (k + 1)) := by
  have hrow := congrFun hw ⟨k, hk⟩
  rw [show dirichletA a b N = tridiag N (1 / delta_x a b N ^ 2) from rfl,
    matVec_tridiag] at hrow
  simp only [dirichletRHS, Fin.val_mk] at hrow
  have e1 : outFun u_a u_b N w (k + 1) = w ⟨k, hk⟩ := by
    simp only [outFun]
    rw [if_neg (by omega), dif_pos (show k + 1 - 1 < N by omega)]
    exact congrArg w (Fin.ext (by simp only [Fin.val_mk]; omega))
  rw [e1]
  by_cases h0 : k = 0 <;> by_cases h1 : k + 1 < N
  · rw [dif_pos h1, dif_neg (by omega), if_pos h0, if_neg (by omega)] at hrow
    have e0 : outFun u_a u_b N w k = u_a := by
      simp only [outFun]
      rw [if_pos h0]
    have e2 : outFun u_a u_b N w (k + 2) = w ⟨k + 1, h1⟩ := by
      simp only [outFun]
      rw [if_neg (by omega), dif_pos (show k + 2 - 1 < N by omega)]
      exact congrArg w (Fin.ext (by simp only [Fin.val_mk]; omega))
    rw [e0, e2]
    linear_combination hrow
  · rw [dif_neg h1, dif_neg (by omega), if_pos h0, if_pos (by omega)] at hrow
    have e0 : outFun u_a u_b N w k = u_a := by
      simp only [outFun]
      rw [if_pos h0]
    have e2 : outFun u_a u_b N w (k + 2) = u_b := by
      simp only [outFun]
      rw [if_neg (by omega), dif_neg (by omega)]
    rw [e0, e2]
    linear_combination hrow
  · rw [dif_pos h1, dif_pos (show 0 < k by omega), if_neg h0,
      if_neg (by omega)] at hrow
    have e0 : outFun u_a u_b N w k = w ⟨k - 1, by omega⟩ := by
      simp only [outFun]
      rw [if_neg h0, dif_pos (show k - 1 < N by omega)]
    have e2 : outFun u_a u_b N w (k + 2) = w ⟨k + 1, h1⟩ := by
      simp only [outFun]
      rw [if_neg (by omega), dif_pos (show k + 2 - 1 < N by omega)]
      exact congrArg w (Fin.ext (by simp only [Fin.val_mk]; omega))
    rw [e0, e2]
    linear_combination hrow
  · rw [dif_neg h1, dif_pos (show 0 < k by omega), if_neg h0,
      if_pos (by omega)] at hrow
    have e0 : outFun u_a u_b N w k = w ⟨k - 1, by omega⟩ := by
      simp only [outFun]
      rw [if_neg h0, dif_pos (show k - 1 < N by omega)]
    have e2 : outFun u_a u_b N w (k + 2) = u_b := by
      simp only [outFun]
      rw [if_neg (by omega), dif_neg (by omega)]
    rw [e0, e2]
    linear_combination hrow

theorem secondDiff_linear {F : Type} [LinearOrderedField F] (p : ℕ → F) (n : ℕ)
    (h : ∀ k, k < n → p k - 2 * p (k + 1) + p (k + 2) = 0) :
    ∀ i, i ≤ n + 1 → p i = p 0 + i * (p 1 - p 0) := by
  have hd : ∀ i, i ≤ n → p (i + 1) - p i = p 1 - p 0 := by
    intro i
    induction i with
    | zero => intro _; norm_num
    | succ m ih =>
      intro hm
      have h2 := h m (by omega)
      have h3 := ih (by omega)
      linarith
  intro i
  induction i with
  | zero => intro _; norm_num
  | succ m ih =>
    intro hm
    have h3 := hd m (by omega)
    have h4 := ih (by omega)
    have hc : ((m + 1 : ℕ) : F) = (m : F) + 1 := by push_cast; ring
    rw [hc]
    have expand : ((m : F) + 1) * (p 1 - p 0)
        = (m : F) * (p 1 - p 0) + (p 1 - p 0) := by ring
    rw [expand]
    linarith

/-- C2: with zero source term (the problem `u_xx = 0`) and `a < b`, the
Dirichlet finite-difference solver output equals, in exact arithmetic, the
linear interpolant `u_a + (u_b - u_a)(x_i - a)/(b - a)` at every grid
point, boundaries included. -/
theorem dirichlet_laplace_exact {F : Type} [LinearOrderedField F]
    (a b u_a u_b : F) (N : ℕ) (hN : 1 ≤ N) (hab : a < b)
    (U : Fin (N + 2) → F)
    (hU : isDirichletOutput (fun _ => 0) a b u_a u_b N U) :
    ∀ i : Fin (N + 2),
      U i = u_a + (u_b - u_a) * (x_bc a b N i - a) / (b - a) := by
  obtain ⟨w, hw, hUdef⟩ := hU
  have hba : b - a ≠ 0 := by
    have : (0 : F) < b - a := by linarith
    exact ne_of_gt this
  have hNc : ((N : F) + 1) ≠ 0 := by positivity
  have hd : delta_x a b N ≠ 0 := by
    rw [delta_x]
    exact div_ne_zero hba hNc
  have hd2 : delta_x a b N ^ 2 ≠ 0 := pow_ne_zero _ hd
  have hzero : ∀ k, k < N →
      outFun u_a u_b N w k - 2 * outFun u_a u_b N w (k + 1)
        + outFun u_a u_b N w (k + 2) = 0 := by
    intro k hk
    have h1 := dirichlet_recurrence (fun _ => 0) a b u_a u_b N w hw k hk
    have h4 := congrArg (fun z => z * delta_x a b N ^ 2) h1
    simp only [] at h4
    rw [div_mul_cancel₀ _ hd2] at h4
    rw [h4]
    ring
  have hlin := secondDiff_linear (outFun u_a u_b N w) N hzero
  have hp0 : outFun u_a u_b N w 0 = u_a := by simp [outFun]
  have hpN : outFun u_a u_b N w (N + 1) = u_b := by
    simp only [outFun]
    rw [if_neg (by omega), dif_neg (by omega)]
  have hend := hlin (N + 1) (le_refl _)
  rw [hp0, hpN] at hend
  have hq : outFun u_a u_b N w 1 - u_a = (u_b - u_a) / ((N : F) + 1) := by
    rw [eq_div_iff hNc]
    push_cast at hend
    nlinarith [hend]
  intro i
  have hi := hlin i (by have := i.isLt; omega)
  rw [hUdef]
  show outFun u_a u_b N w i = _
  rw [hi, hp0, hq, x_bc]
  field_simp
  ring

theorem dirichlet_laplace_exact_witness :
    dirichletOutput (0 : ℚ) 1 1 ![1 / 2] ⟨1, by omega⟩
      = 0 + (1 - 0) * (x_bc (0 : ℚ) 1 1 1 - 0) / (1 - 0) :=
  dirichlet_laplace_exact 0 1 0 1 1 (le_refl 1) (by norm_num)
    (dirichletOutput 0 1 1 ![1 / 2])
    ⟨![1 / 2], by
      funext j
      fin_cases j
      norm_num [matVec, dirichletA, tridiag, diagMain, diagUpper, diagLower,
        dirichletRHS, delta_x, Fin.sum_univ_succ], rfl⟩
    ⟨1, by omega⟩

/-- C8: each solver is deterministic: for fixed inputs any two Dirichlet
solve outputs coincide (the assembled system has a unique solution when
`a < b`), and the shooting loop result is a function of its inputs alone:
integrators with identical input-output behaviour give identical results
(solution state, success flag and convergence trace). -/
theorem solvers_deterministic {F : Type} [LinearOrderedField F]
    (f : F → F) (a b u_a u_b : F) (N : ℕ) (hab : a < b)
    (U V : Fin (N + 2) → F)
    (hU : isDirichletOutput f a b u_a u_b N U)
    (hV : isDirichletOutput f a b u_a u_b N V)
    (ivp ivp' : F → Option F) (u_b' TOL : F) (n : ℕ) (s : ShootState F)
    (tr : List F) (hagree : ∀ t, ivp t = ivp' t) :
    U = V ∧ shootLoop ivp u_b' TOL n s tr = shootLoop ivp' u_b' TOL n s tr := by
  constructor
  · obtain ⟨w, hw, hUdef⟩ := hU
    obtain ⟨v, hv, hVdef⟩ := hV
    have hba : b - a ≠ 0 := by
      have : (0 : F) < b - a := by linarith
      exact ne_of_gt this
    have hNc : ((N : F) + 1) ≠ 0 := by positivity
    have hd2 : delta_x a b N ^ 2 ≠ 0 :=
      pow_ne_zero _ (by rw [delta_x]; exact div_ne_zero hba hNc)
    have hz : ∀ k, k < N →
        (fun i => outFun u_a u_b N w i - outFun u_a u_b N v i) k
          - 2 * (fun i => outFun u_a u_b N w i - outFun u_a u_b N v i) (k + 1)
          + (fun i => outFun u_a u_b N w i - outFun u_a u_b N v i) (k + 2)
          = 0 := by
      intro k hk
      have h1 := dirichlet_recurrence f a b u_a u_b N w hw k hk
      have h2 := dirichlet_recurrence f a b u_a u_b N v hv k hk
      have h12 := h1.trans h2.symm
      have h4 := congrArg (fun z => z * delta_x a b N ^ 2) h12
      simp only [] at h4
      rw [div_mul_cancel₀ _ hd2, div_mul_cancel₀ _ hd2] at h4
      simp only []
      linarith
    have hlin := secondDiff_linear
      (fun i => outFun u_a u_b N w i - outFun u_a u_b N v i) N hz
    have hp0 : outFun u_a u_b N w 0 - outFun u_a u_b N v 0 = 0 := by
      simp [outFun]
    have htop : ∀ u : Fin N → F, outFun u_a u_b N u (N + 1) = u_b := by
      intro u
      simp only [outFun]
      rw [if_neg (by omega), dif_neg (by omega)]
    have hpN : outFun u_a u_b N w (N + 1) - outFun u_a u_b N v (N + 1) = 0 := by
      rw [htop, htop]
      ring
    have hend := hlin (N + 1) (le_refl _)
    simp only [] at hend
    rw [hp0, hpN] at hend
    have hp1 : outFun u_a u_b N w 1 - outFun u_a u_b N v 1 = 0 := by
      have : ((N + 1 : ℕ) : F) ≠ 0 := by push_cast; positivity
      rcases mul_eq_zero.mp (by linarith [hend] :
          ((N + 1 : ℕ) : F) * ((outFun u_a u_b N w 1 - outFun u_a u_b N v 1)
            - 0) = 0) with hc | hc
      · exact absurd hc this
      · linarith
    funext i
    rw [hUdef, hVdef]
    show outFun u_a u_b N w i = outFun u_a u_b N v i
    have hi := hlin i (by have := i.isLt; omega)
    simp only [] at hi
    rw [hp0, hp1] at hi
    have : outFun u_a u_b N w i - outFun u_a u_b N v i = 0 := by
      rw [hi]
      ring
    linarith
  · rw [funext hagree]

theorem solvers_deterministic_witness :
    dirichletOutput (0 : ℚ) 1 1 ![3 / 8] = dirichletOutput (0 : ℚ) 1 1 ![3 / 8]
    ∧ shootLoop (fun _ => none) (0 : ℚ) 1 2 ⟨0, 1⟩ []
        = shootLoop (fun _ => none) (0 : ℚ) 1 2 ⟨0, 1⟩ [] :=
  solvers_deterministic (fun _ => 1) 0 1 0 1 1 (by norm_num)
    (dirichletOutput 0 1 1 ![3 / 8]) (dirichletOutput 0 1 1 ![3 / 8])
    ⟨![3 / 8], by
      funext j
      fin_cases j
      norm_num [matVec, dirichletA, tridiag, diagMain, diagUpper, diagLower,
        dirichletRHS, delta_x, Fin.sum_univ_succ], rfl⟩
    ⟨![3 / 8], by
      funext j
      fin_cases j
      norm_num [matVec, dirichletA, tridiag, diagMain, diagUpper, diagLower,
        dirichletRHS, delta_x, Fin.sum_univ_succ], rfl⟩
    (fun _ => none) (fun _ => none) 0 1 2 ⟨0, 1⟩ [] (fun _ => rfl)

theorem exp_symm_taylor (h : ℝ) (h0 : 0 ≤ h) (h1 : h ≤ 1) :
    |Real.exp h + Real.exp (-h) - 2 - h ^ 2| ≤ 5 / 48 * h ^ 4 := by
  have habs : |h| ≤ 1 := by rwa [abs_of_nonneg h0]
  have habsneg : |(-h)| ≤ 1 := by rwa [abs_neg]
  have hb1 := @Real.exp_bound h habs 4 (by norm_num)
  have hb2 := @Real.exp_bound (-h) habsneg 4 (by norm_num)
  have hs1 : ∑ m ∈ Finset.range 4, h ^ m / m.factorial
      = 1 + h + h ^ 2 / 2 + h ^ 3 / 6 := by
    simp [Finset.sum_range_succ, Nat.factorial]
    try ring
  have hs2 : ∑ m ∈ Finset.range 4, (-h) ^ m / m.factorial
      = 1 - h + h ^ 2 / 2 - h ^ 3 / 6 := by
    simp [Finset.sum_range_succ, Nat.factorial]
    try ring
  rw [hs1, abs_of_nonneg h0] at hb1
  rw [hs2, abs_neg, abs_of_nonneg h0] at hb2
  have hb1' : |Real.exp h - (1 + h + h ^ 2 / 2 + h ^ 3 / 6)| ≤ 5 / 96 * h ^ 4 :=
    le_trans hb1 (le_of_eq (by norm_num [Nat.factorial]; try ring))
  have hb2' : |Real.exp (-h) - (1 - h + h ^ 2 / 2 - h ^ 3 / 6)|
      ≤ 5 / 96 * h ^ 4 :=
    le_trans hb2 (le_of_eq (by norm_num [Nat.factorial]; try ring))
  have key : Real.exp h + Real.exp (-h) - 2 - h ^ 2
      = (Real.exp h - (1 + h + h ^ 2 / 2 + h ^ 3 / 6))
        + (Real.exp (-h) - (1 - h + h ^ 2 / 2 - h ^ 3 / 6)) := by
    ring
  rw [key]
  calc |Real.exp h - (1 + h + h ^ 2 / 2 + h ^ 3 / 6)
        + (Real.exp (-h) - (1 - h + h ^ 2 / 2 - h ^ 3 / 6))|
      ≤ |Real.exp h - (1 + h + h ^ 2 / 2 + h ^ 3 / 6)|
        + |Real.exp (-h) - (1 - h + h ^ 2 / 2 - h ^ 3 / 6)| := abs_add _ _
    _ ≤ 5 / 96 * h ^ 4 + 5 / 96 * h ^ 4 := add_le_add hb1' hb2'
    _ = 5 / 48 * h ^ 4 := by ring

theorem discrete_concave_nonneg (p : ℕ → ℝ) (n : ℕ)
    (hconc : ∀ k, k < n → p k - 2 * p (k + 1) + p (k + 2) ≤ 0)
    (hfirst : 0 ≤ p 0) (hlast : 0 ≤ p (n + 1)) :
    ∀ i, i ≤ n + 1 → 0 ≤ p i := by
  by_contra hcon
  push_neg at hcon
  obtain ⟨j, hj, hpj⟩ := hcon
  have hanti : ∀ m k, m ≤ k → k ≤ n → p (k + 1) - p k ≤ p (m + 1) - p m := by
    intro m k hmk
    induction k with
    | zero =>
      intro _
      have : m = 0 := by omega
      subst this
      exact le_refl _
    | succ k ih =>
      intro hkn
      rcases Nat.eq_or_lt_of_le hmk with hEq | hlt
      · rw [hEq]
      · have h1 := hconc k (by omega)
        have h2 := ih (by omega) (by omega)
        linarith
  have htel1 : p j - p 0 = ∑ t ∈ Finset.range j, (p (t + 1) - p t) :=
    (Finset.sum_range_sub p j).symm
  have hex : ∃ t, t < j ∧ p (t + 1) - p t < 0 := by
    by_contra hno
    push_neg at hno
    have : (0 : ℝ) ≤ ∑ t ∈ Finset.range j, (p (t + 1) - p t) :=
      Finset.sum_nonneg fun t ht => hno t (Finset.mem_range.mp ht)
    linarith [htel1]
  obtain ⟨t0, ht0j, ht0neg⟩ := hex
  have htel2 : p (n + 1) - p j = ∑ t ∈ Finset.Ico j (n + 1), (p (t + 1) - p t) := by
    have h1 : ∑ t ∈ Finset.Ico 0 j, (p (t + 1) - p t)
        + ∑ t ∈ Finset.Ico j (n + 1), (p (t + 1) - p t)
        = ∑ t ∈ Finset.Ico 0 (n + 1), (p (t + 1) - p t) :=
      Finset.sum_Ico_consecutive _ (Nat.zero_le j) hj
    have h2 : ∑ t ∈ Finset.Ico 0 j, (p (t + 1) - p t) = p j - p 0 := by
      rw [← Nat.Ico_zero_eq_range] at htel1
      linarith [htel1]
    have h3 : ∑ t ∈ Finset.Ico 0 (n + 1), (p (t + 1) - p t) = p (n + 1) - p 0 := by
      have := (Finset.sum_range_sub p (n + 1)).symm
      rw [← Nat.Ico_zero_eq_range] at this
      linarith [this]
    linarith
  have hsum_neg : ∑ t ∈ Finset.Ico j (n + 1), (p (t + 1) - p t) ≤ 0 := by
    refine Finset.sum_nonpos fun t ht => ?_
    obtain ⟨htj, htn⟩ := Finset.mem_Ico.mp ht
    have := hanti t0 t (by omega) (by omega)
    linarith
  linarith

/-- C9: for the Dirichlet finite-difference solver applied to `u_xx = e^x`
on `[0,1]` with `u(0) = 0`, `u(1) = 3`, every exact solve output is within
`(5e/384) * delta_x^2` of the exact solution at every grid point, so the
maximum grid error shrinks at rate `O(delta_x^2)` as `N` grows
(second-order convergence: halving `delta_x` scales the bound by 4). -/
theorem dirichlet_convergence_quadratic (N : ℕ) (hN : 1 ≤ N)
    (U : Fin (N + 2) → ℝ) (hU : isDirichletOutput Real.exp 0 1 0 3 N U) :
    ∀ i : Fin (N + 2),
      |U i - u_true (x_bc 0 1 N i)|
        ≤ 5 * Real.exp 1 / 384 * delta_x (0 : ℝ) 1 N ^ 2 := by
  obtain ⟨w, hw, hUdef⟩ := hU
  set h := delta_x (0 : ℝ) 1 N with hhdef
  clear_value h
  have hNc : (0 : ℝ) < (N : ℝ) + 1 := by positivity
  have hh : h = 1 / ((N : ℝ) + 1) := by rw [hhdef, delta_x]; ring
  have hhpos : 0 < h := by rw [hh]; positivity
  have hh1 : h ≤ 1 := by
    rw [hh, div_le_one hNc]
    linarith [@Nat.cast_nonneg ℝ _ N]
  have hgrid : ∀ j : ℕ, x_bc (0 : ℝ) 1 N j = j * h := by
    intro j
    rw [x_bc, hh]
    ring
  have hNh : ((N : ℝ) + 1) * h = 1 := by
    rw [hh]
    field_simp
  have hrec : ∀ k, k < N →
      outFun (0 : ℝ) 3 N w k - 2 * outFun (0 : ℝ) 3 N w (k + 1)
        + outFun (0 : ℝ) 3 N w (k + 2)
        = h ^ 2 * Real.exp (((k : ℝ) + 1) * h) := by
    intro k hk
    have h1 := dirichlet_recurrence Real.exp 0 1 0 3 N w hw k hk
    have h4 := congrArg (fun z => z * delta_x (0 : ℝ) 1 N ^ 2) h1
    simp only [] at h4
    have hd2 : delta_x (0 : ℝ) 1 N ^ 2 ≠ 0 := by
      rw [← hhdef]
      exact pow_ne_zero _ (ne_of_gt hhpos)
    rw [div_mul_cancel₀ _ hd2] at h4
    rw [h4, ← hhdef, hgrid (k + 1)]
    push_cast
    ring
  set e : ℕ → ℝ := fun j => outFun (0 : ℝ) 3 N w j - u_true ((j : ℝ) * h)
    with hedef
  clear_value e
  have hp0 : outFun (0 : ℝ) 3 N w 0 = 0 := by simp [outFun]
  have hpN : outFun (0 : ℝ) 3 N w (N + 1) = 3 := by
    simp only [outFun]
    rw [if_neg (by omega), dif_neg (by omega)]
  have hu0 : u_true 0 = 0 := by
    rw [u_true]
    simp
  have hu1 : u_true 1 = 3 := by
    rw [u_true]
    ring
  have he0 : e 0 = 0 := by
    simp only [hedef]
    push_cast
    rw [zero_mul, hp0, hu0]
    ring
  have heN : e (N + 1) = 0 := by
    simp only [hedef]
    push_cast
    rw [hNh, hpN, hu1]
    ring
  have hDtrue : ∀ k : ℕ,
      u_true ((k : ℝ) * h) - 2 * u_true (((k : ℝ) + 1) * h)
        + u_true (((k : ℝ) + 2) * h)
        = Real.exp (((k : ℝ) + 1) * h)
            * (Real.exp h + Real.exp (-h) - 2) := by
    intro k
    have e1 : (k : ℝ) * h = ((k : ℝ) + 1) * h + -h := by ring
    have e2 : ((k : ℝ) + 2) * h = ((k : ℝ) + 1) * h + h := by ring
    rw [e1, e2]
    simp only [u_true]
    rw [Real.exp_add, Real.exp_add]
    ring
  have herr : ∀ k, k < N →
      |e k - 2 * e (k + 1) + e (k + 2)| ≤ Real.exp 1 * (5 / 48) * h ^ 4 := by
    intro k hk
    have hr := hrec k hk
    have hD := hDtrue k
    have heq : e k - 2 * e (k + 1) + e (k + 2)
        = Real.exp (((k : ℝ) + 1) * h)
            * (h ^ 2 - (Real.exp h + Real.exp (-h) - 2)) := by
      simp only [hedef]
      push_cast
      linear_combination hr - hD
    rw [heq, abs_mul, abs_of_pos (Real.exp_pos _)]
    have hxle : Real.exp (((k : ℝ) + 1) * h) ≤ Real.exp 1 := by
      apply Real.exp_le_exp.mpr
      have hkN : ((k : ℝ) + 1) ≤ (N : ℝ) + 1 := by
        have : (k : ℝ) ≤ (N : ℝ) := by
          exact_mod_cast le_of_lt hk
        linarith
      calc ((k : ℝ) + 1) * h ≤ ((N : ℝ) + 1) * h :=
            mul_le_mul_of_nonneg_right hkN hhpos.le
        _ = 1 := hNh
    have habs2 : |h ^ 2 - (Real.exp h + Real.exp (-h) - 2)| ≤ 5 / 48 * h ^ 4 := by
      rw [abs_sub_comm]
      exact exp_symm_taylor h hhpos.le hh1
    calc Real.exp (((k : ℝ) + 1) * h)
          * |h ^ 2 - (Real.exp h + Real.exp (-h) - 2)|
        ≤ Real.exp 1 * (5 / 48 * h ^ 4) :=
          mul_le_mul hxle habs2 (abs_nonneg _) (Real.exp_pos 1).le
      _ = Real.exp 1 * (5 / 48) * h ^ 4 := by ring
  set M := Real.exp 1 * (5 / 48) * h ^ 2 with hMdef
  clear_value M
  have hMnonneg : 0 ≤ M := by
    rw [hMdef]
    positivity
  have hBM : Real.exp 1 * (5 / 48) * h ^ 4 = M * h ^ 2 := by
    rw [hMdef]
    ring
  set phi : ℕ → ℝ := fun j => ((j : ℝ) * h) * (1 - (j : ℝ) * h) / 2
    with hphidef
  clear_value phi
  have hDphi : ∀ k : ℕ, phi k - 2 * phi (k + 1) + phi (k + 2) = -(h ^ 2) := by
    intro k
    simp only [hphidef]
    push_cast
    ring
  have hphi0 : phi 0 = 0 := by
    simp only [hphidef]
    push_cast
    ring
  have hphiN : phi (N + 1) = 0 := by
    simp only [hphidef]
    push_cast
    rw [hNh]
    ring
  have hxrange : ∀ j : ℕ, j ≤ N + 1 →
      0 ≤ (j : ℝ) * h ∧ (j : ℝ) * h ≤ 1 := by
    intro j hj
    constructor
    · exact mul_nonneg (Nat.cast_nonneg j) hhpos.le
    · have hcast : (j : ℝ) ≤ (N : ℝ) + 1 := by
        have : ((j : ℕ) : ℝ) ≤ ((N + 1 : ℕ) : ℝ) := Nat.cast_le.mpr hj
        push_cast at this
        linarith
      calc (j : ℝ) * h ≤ ((N : ℝ) + 1) * h :=
            mul_le_mul_of_nonneg_right hcast hhpos.le
        _ = 1 := hNh
  have hphile : ∀ j : ℕ, j ≤ N + 1 → phi j ≤ 1 / 8 := by
    intro j hj
    obtain ⟨hx0, hx1⟩ := hxrange j hj
    simp only [hphidef]
    nlinarith [sq_nonneg ((j : ℝ) * h - 1 / 2)]
  have hphinonneg : ∀ j : ℕ, j ≤ N + 1 → 0 ≤ phi j := by
    intro j hj
    obtain ⟨hx0, hx1⟩ := hxrange j hj
    simp only [hphidef]
    have : 0 ≤ 1 - (j : ℝ) * h := by linarith
    positivity
  have hupper := discrete_concave_nonneg (fun j => M * phi j - e j) N
    (by
      intro k hk
      simp only []
      have h1 := congrArg (fun z => M * z) (hDphi k)
      simp only [] at h1
      have h2 := abs_le.mp (herr k hk)
      linarith [h1, h2.1, h2.2, hBM])
    (by
      simp only []
      rw [hphi0, he0]
      norm_num)
    (by
      simp only []
      rw [hphiN, heN]
      norm_num)
  have hlower := discrete_concave_nonneg (fun j => M * phi j + e j) N
    (by
      intro k hk
      simp only []
      have h1 := congrArg (fun z => M * z) (hDphi k)
      simp only [] at h1
      have h2 := abs_le.mp (herr k hk)
      linarith [h1, h2.1, h2.2, hBM])
    (by
      simp only []
      rw [hphi0, he0]
      norm_num)
    (by
      simp only []
      rw [hphiN, heN]
      norm_num)
  intro i
  have hile : (i : ℕ) ≤ N + 1 := by
    have := i.isLt
    omega
  have hub := hupper (i : ℕ) hile
  have hlb := hlower (i : ℕ) hile
  simp only [] at hub hlb
  have hphibd := hphile (i : ℕ) hile
  have hMphi : M * phi (i : ℕ) ≤ M * (1 / 8) :=
    mul_le_mul_of_nonneg_left hphibd hMnonneg
  have habs : |e (i : ℕ)| ≤ M * (1 / 8) := by
    rw [abs_le]
    constructor
    · linarith
    · linarith
  have hfinal : M * (1 / 8) = 5 * Real.exp 1 / 384 * h ^ 2 := by
    rw [hMdef]
    ring
  rw [hUdef]
  show |outFun (0 : ℝ) 3 N w (i : ℕ) - u_true (x_bc 0 1 N (i : ℕ))|
    ≤ 5 * Real.exp 1 / 384 * h ^ 2
  rw [hgrid (i : ℕ)]
  have he_eq : e (i : ℕ)
      = outFun (0 : ℝ) 3 N w (i : ℕ) - u_true ((i : ℕ) * h) := by
    simp only [hedef]
  rw [← he_eq, ← hfinal]
  exact habs

theorem dirichlet_convergence_quadratic_witness :
    |dirichletOutput (0 : ℝ) 3 1 ![(12 - Real.exp (1 / 2)) / 8] ⟨1, by omega⟩
        - u_true (x_bc 0 1 1 1)|
      ≤ 5 * Real.exp 1 / 384 * delta_x (0 : ℝ) 1 1 ^ 2 :=
  dirichlet_convergence_quadratic 1 (le_refl 1)
    (dirichletOutput 0 3 1 ![(12 - Real.exp (1 / 2)) / 8])
    ⟨![(12 - Real.exp (1 / 2)) / 8], by
      funext j
      fin_cases j
      norm_num [matVec, dirichletA, tridiag, diagMain, diagUpper, diagLower,
        dirichletRHS, delta_x, x_bc, Fin.sum_univ_succ]
      try ring, rfl⟩
    ⟨1, by omega⟩
